import Mathlib

/-!
Shallow embedding of the driver-management system's core rule engines:
the monthly day-off pattern expander (SQL trigger
`create_monthly_dayoff_schedules` plus the pattern-form `handleSubmit`)
and the replacement/overtime ledger (`handleAssignReplacement`,
`handleUpdateReplacement` in the day-schedule dialog), together with the
schedule-marking handler `handleScheduleUpdate` and the pattern-deletion
handler `handleDelete`.

Tables are lists of rows; UUIDs are modelled as naturals supplied by the
caller where the database would generate them; `DECIMAL` columns are
rationals.
-/

namespace DriverMgmt

/-- A calendar date (proleptic Gregorian). -/
structure Date where
  year : Nat
  month : Nat
  day : Nat
deriving DecidableEq, Repr

/-- Gregorian leap-year rule (as used by PostgreSQL `make_date` ranges). -/
def isLeapYear (y : Nat) : Bool :=
  (y % 4 == 0 && y % 100 != 0) || (y % 400 == 0)

/-- Number of days in a month; mirrors the SQL
`(make_date(year, month, 1) + interval '1 month - 1 day')` computation. -/
def daysInMonth (y m : Nat) : Nat :=
  if m = 2 then (if isLeapYear y then 29 else 28)
  else if m = 4 ∨ m = 6 ∨ m = 9 ∨ m = 11 then 30
  else 31

/-- Days in year `y` strictly before month `m`. -/
def daysToMonth (y m : Nat) : Nat :=
  ((List.range (m - 1)).map (fun i => daysInMonth y (i + 1))).sum

/-- Serial day number of a date (day 1 = January 1 of year 1, a Monday in
the proleptic Gregorian calendar). -/
def dayNumber (d : Date) : Nat :=
  365 * (d.year - 1) + (d.year - 1) / 4 + (d.year - 1) / 400
    + daysToMonth d.year d.month + d.day - (d.year - 1) / 100

/-- Day of week with PostgreSQL `EXTRACT(DOW)` numbering:
0 = Sunday .. 6 = Saturday. -/
def dayOfWeek (d : Date) : Nat := dayNumber d % 7

/-- SQL `date` comparison `a <= b` (dates compare chronologically,
i.e. lexicographically on year, month, day). -/
def dateLe (a b : Date) : Bool :=
  if a.year ≠ b.year then decide (a.year < b.year)
  else if a.month ≠ b.month then decide (a.month < b.month)
  else decide (a.day ≤ b.day)

/-- `date >= first_of_month AND date <= last_of_month`, the range filter
used by both the trigger's DELETE and the pattern-deletion handler. -/
def inMonthRange (y m : Nat) (d : Date) : Bool :=
  dateLe ⟨y, m, 1⟩ d && dateLe d ⟨y, m, daysInMonth y m⟩

example : dayOfWeek ⟨2024, 2, 1⟩ = 4 := by decide
example : dayOfWeek ⟨2024, 2, 29⟩ = 4 := by decide
example : dayOfWeek ⟨2024, 2, 4⟩ = 0 := by decide

/-- One row of the `schedules` table.  The table's DDL is not in the
repository; columns and the `(driver_id, date)` unique key are as listed
in the spec's data model, and the flag columns default to `false`
(their `Insert` type marks them optional). -/
structure ScheduleRow where
  driver_id : Nat
  date : Date
  is_day_off : Bool
  is_annual_leave : Bool
deriving DecidableEq, Repr

/-- The `(driver_id, date)` key of a schedule row, unique in the table. -/
def schedKey (r : ScheduleRow) : Nat × Date := (r.driver_id, r.date)

/-- The `schedules(driver_id, date)` uniqueness constraint that
`ON CONFLICT (driver_id, date)` relies on. -/
def uniqueSchedKeys (s : List ScheduleRow) : Prop := (s.map schedKey).Nodup

instance : DecidablePred uniqueSchedKeys := fun s =>
  inferInstanceAs (Decidable ((s.map schedKey).Nodup))

/-- Does the table hold a row for `(driver, d)`?  This is the conflict
test of `INSERT ... ON CONFLICT (driver_id, date)`. -/
def hasKey (driver : Nat) (d : Date) (s : List ScheduleRow) : Bool :=
  s.any (fun r => decide (r.driver_id = driver ∧ r.date = d))

/-- `INSERT INTO schedules (driver_id, date, is_day_off) VALUES (driver, d, true)
ON CONFLICT (driver_id, date) DO UPDATE SET is_day_off = true`: on conflict
only `is_day_off` is overwritten (`is_annual_leave` is preserved); otherwise
a fresh row is inserted with `is_annual_leave` at its default `false`. -/
def upsertDayOff (driver : Nat) (d : Date) (s : List ScheduleRow) : List ScheduleRow :=
  if hasKey driver d s then
    s.map (fun r =>
      if r.driver_id = driver ∧ r.date = d then { r with is_day_off := true } else r)
  else s ++ [⟨driver, d, true, false⟩]

/-- One iteration of the trigger's date loop: if the date's weekday equals
the pattern's `day_of_week`, upsert a day-off row, else leave the table
alone.  Day index `i` stands for calendar day `i + 1`. -/
def expandStep (driver month year dow : Nat) (s : List ScheduleRow) (i : Nat) :
    List ScheduleRow :=
  if dayOfWeek ⟨year, month, i + 1⟩ = dow then
    upsertDayOff driver ⟨year, month, i + 1⟩ s
  else s

/-- The trigger function `create_monthly_dayoff_schedules` (migration
`20240323000000_recreate_driver_monthly_dayoff.sql`, delete-then-expand
variant): first delete every existing day-off row for the driver between
the first and last day of the month, then walk every date of the month
and upsert a day-off row where the weekday matches `day_of_week`.  The
SQL reads the weekday via `EXTRACT(DOW FROM curr_date AT TIME ZONE
'Asia/Bangkok')`; per the spec this evaluates the date's own weekday in
the fixed reference zone, i.e. `dayOfWeek`. -/
def create_monthly_dayoff_schedules (driver month year dow : Nat)
    (s : List ScheduleRow) : List ScheduleRow :=
  let afterDelete := s.filter (fun r =>
    !decide (r.driver_id = driver ∧ inMonthRange year month r.date = true ∧
      r.is_day_off = true))
  (List.range (daysInMonth year month)).foldl (expandStep driver month year dow)
    afterDelete

/-- Rows of the table counted by the spec's property 1: day-off rows of
this driver dated inside the month. -/
def isDayOffRow (driver year month : Nat) (r : ScheduleRow) : Bool :=
  decide (r.driver_id = driver ∧ inMonthRange year month r.date = true ∧
    r.is_day_off = true)

/-- Any row of this driver dated inside the month (day-off or not). -/
def isMonthRow (driver year month : Nat) (r : ScheduleRow) : Bool :=
  decide (r.driver_id = driver ∧ inMonthRange year month r.date = true)

theorem inMonthRange_iff (y m : Nat) (d : Date) :
    inMonthRange y m d = true ↔
      d.year = y ∧ d.month = m ∧ 1 ≤ d.day ∧ d.day ≤ daysInMonth y m := by
  obtain ⟨dy, dm, dd⟩ := d
  simp only [inMonthRange, dateLe, Bool.and_eq_true]
  generalize daysInMonth y m = n
  split_ifs <;> simp_all <;> omega

theorem schedKey_set_day_off (r : ScheduleRow) :
    schedKey { r with is_day_off := true } = schedKey r := rfl

theorem hasKey_iff (driver : Nat) (d : Date) (s : List ScheduleRow) :
    hasKey driver d s = true ↔ (driver, d) ∈ s.map schedKey := by
  simp only [hasKey, List.any_eq_true, decide_eq_true_eq, List.mem_map, schedKey,
    Prod.mk.injEq]

theorem upsertDayOff_map_schedKey (driver : Nat) (d : Date) (s : List ScheduleRow) :
    (upsertDayOff driver d s).map schedKey =
      if hasKey driver d s then s.map schedKey
      else s.map schedKey ++ [(driver, d)] := by
  unfold upsertDayOff
  split
  · rw [List.map_map]
    refine List.map_congr_left (fun r _ => ?_)
    by_cases hr : r.driver_id = driver ∧ r.date = d
    · simp [hr, schedKey]
    · simp [hr]
  · simp [schedKey]

theorem upsertDayOff_unique {driver : Nat} {d : Date} {s : List ScheduleRow}
    (h : uniqueSchedKeys s) : uniqueSchedKeys (upsertDayOff driver d s) := by
  unfold uniqueSchedKeys
  rw [upsertDayOff_map_schedKey]
  split
  · exact h
  · next hk =>
    rw [List.nodup_append]
    refine ⟨h, List.nodup_singleton _, ?_⟩
    intro x hx hx'
    simp only [List.mem_singleton] at hx'
    subst hx'
    exact hk ((hasKey_iff driver d s).mpr hx)

theorem hasKey_upsertDayOff_of_ne {dr driver : Nat} {dd d : Date}
    {s : List ScheduleRow} (h : hasKey dr dd s = false)
    (hne : (dr, dd) ≠ (driver, d)) :
    hasKey dr dd (upsertDayOff driver d s) = false := by
  rw [Bool.eq_false_iff]
  intro hc
  rw [hasKey_iff, upsertDayOff_map_schedKey] at hc
  split at hc
  · exact absurd ((hasKey_iff dr dd s).mpr hc) (by simp [h])
  · rcases List.mem_append.mp hc with hm | hm
    · exact absurd ((hasKey_iff dr dd s).mpr hm) (by simp [h])
    · simp only [List.mem_singleton] at hm
      exact hne hm

theorem mem_upsertDayOff_cases {r' : ScheduleRow} {driver : Nat} {d : Date}
    {s : List ScheduleRow} (h : r' ∈ upsertDayOff driver d s) :
    r' ∈ s ∨ (r'.driver_id = driver ∧ r'.date = d ∧ r'.is_day_off = true) := by
  unfold upsertDayOff at h
  split at h
  · obtain ⟨r, hr, hrr⟩ := List.mem_map.mp h
    by_cases hx : r.driver_id = driver ∧ r.date = d
    · rw [if_pos hx] at hrr
      right
      rw [← hrr]
      exact ⟨hx.1, hx.2, rfl⟩
    · rw [if_neg hx] at hrr
      exact Or.inl (hrr ▸ hr)
  · rcases List.mem_append.mp h with hm | hm
    · exact Or.inl hm
    · simp only [List.mem_singleton] at hm
      subst hm
      exact Or.inr ⟨rfl, rfl, rfl⟩

theorem exists_dayoff_upsertDayOff (driver : Nat) (d : Date) (s : List ScheduleRow) :
    ∃ r' ∈ upsertDayOff driver d s,
      r'.driver_id = driver ∧ r'.date = d ∧ r'.is_day_off = true := by
  unfold upsertDayOff
  split
  · next hk =>
    obtain ⟨r, hr, hpr⟩ := List.any_eq_true.mp hk
    simp only [decide_eq_true_eq] at hpr
    refine ⟨{ r with is_day_off := true }, List.mem_map.mpr ⟨r, hr, ?_⟩, hpr.1, hpr.2, rfl⟩
    rw [if_pos hpr]
  · exact ⟨⟨driver, d, true, false⟩, List.mem_append_right _ (List.mem_singleton.mpr rfl),
      rfl, rfl, rfl⟩

theorem exists_dayoff_mono (driver : Nat) (d : Date) (s : List ScheduleRow)
    (dr : Nat) (dd : Date)
    (h : ∃ r ∈ s, r.driver_id = dr ∧ r.date = dd ∧ r.is_day_off = true) :
    ∃ r' ∈ upsertDayOff driver d s,
      r'.driver_id = dr ∧ r'.date = dd ∧ r'.is_day_off = true := by
  obtain ⟨r, hr, h1, h2, h3⟩ := h
  unfold upsertDayOff
  split
  · by_cases hx : r.driver_id = driver ∧ r.date = d
    · refine ⟨{ r with is_day_off := true }, List.mem_map.mpr ⟨r, hr, ?_⟩, h1, h2, rfl⟩
      rw [if_pos hx]
    · refine ⟨r, List.mem_map.mpr ⟨r, hr, ?_⟩, h1, h2, h3⟩
      rw [if_neg hx]
  · exact ⟨r, List.mem_append_left _ hr, h1, h2, h3⟩

theorem countP_upsertDayOff {p : ScheduleRow → Bool} {driver : Nat} {d : Date}
    {s : List ScheduleRow} (huniq : uniqueSchedKeys s)
    (hnew : p ⟨driver, d, true, false⟩ = true)
    (hflip : ∀ r ∈ s, r.driver_id = driver → r.date = d →
      p { r with is_day_off := true } = true ∧ p r = false) :
    (upsertDayOff driver d s).countP p = s.countP p + 1 := by
  unfold upsertDayOff
  split
  · next hk =>
    clear hnew
    induction s with
    | nil => simp [hasKey] at hk
    | cons r t ih =>
      have hu : (t.map schedKey).Nodup ∧ schedKey r ∉ t.map schedKey := by
        have := huniq
        simp only [uniqueSchedKeys, List.map_cons, List.nodup_cons] at this
        exact ⟨this.2, this.1⟩
      by_cases hr : r.driver_id = driver ∧ r.date = d
      · have htail : ∀ x ∈ t, ¬(x.driver_id = driver ∧ x.date = d) := by
          intro x hx hxk
          refine hu.2 (List.mem_map.mpr ⟨x, hx, ?_⟩)
          simp only [schedKey, hr.1, hr.2, hxk.1, hxk.2]
        have hmap : t.map (fun x =>
            if x.driver_id = driver ∧ x.date = d then { x with is_day_off := true }
            else x) = t := by
          rw [show t = t.map id by rw [List.map_id]]
          rw [List.map_map]
          refine List.map_congr_left (fun x hx => ?_)
          simp [htail x (by simpa using hx)]
        obtain ⟨hp1, hp2⟩ := hflip r (List.mem_cons_self r t) hr.1 hr.2
        rw [hr.1, hr.2] at hp1
        simp [List.countP_cons, hr, hmap, hp1, hp2]
      · have hk' : hasKey driver d t = true := by
          simp only [hasKey, List.any_cons, Bool.or_eq_true, decide_eq_true_eq] at hk
          rcases hk with h | h
          · exact absurd h hr
          · exact h
        have ih' := ih (by simpa only [uniqueSchedKeys] using hu.1)
          (fun x hx => hflip x (List.mem_cons_of_mem r hx)) hk'
        simp only [List.map_cons, List.countP_cons, if_neg hr, ih']
        omega
  · rw [List.countP_append]
    simp [hnew]

/-- Splitting a count along a second predicate, with the monotonicity it
needs: if `q` implies `p` on the list then `q`-rows are at most `p`-rows
and the `p ∧ ¬q` rows number `countP p - countP q`. -/
theorem countP_sub_of_imp {α : Type} (p q : α → Bool) (l : List α)
    (h : ∀ a ∈ l, q a = true → p a = true) :
    l.countP q ≤ l.countP p ∧
      l.countP (fun a => p a && !q a) = l.countP p - l.countP q := by
  induction l with
  | nil => simp
  | cons a t ih =>
    obtain ⟨ih1, ih2⟩ := ih (fun x hx => h x (List.mem_cons_of_mem a hx))
    have ha := h a (List.mem_cons_self a t)
    by_cases hq : q a = true
    · simp [List.countP_cons, hq, ha hq]
      omega
    · simp only [Bool.not_eq_true] at hq
      by_cases hp : p a = true
      · simp [List.countP_cons, hq, hp]
        omega
      · simp only [Bool.not_eq_true] at hp
        simp [List.countP_cons, hq, hp]
        omega

theorem foldl_expand_unique (driver month year dow : Nat) (l : List Nat)
    (s : List ScheduleRow) (huniq : uniqueSchedKeys s) :
    uniqueSchedKeys (l.foldl (expandStep driver month year dow) s) := by
  induction l generalizing s with
  | nil => exact huniq
  | cons i t ih =>
    rw [List.foldl_cons]
    refine ih _ ?_
    unfold expandStep
    split
    · exact upsertDayOff_unique huniq
    · exact huniq

theorem foldl_expand_countP (driver month year dow : Nat) (l : List Nat)
    (s : List ScheduleRow) (huniq : uniqueSchedKeys s) (hnodup : l.Nodup)
    (hdays : ∀ i ∈ l, i + 1 ≤ daysInMonth year month)
    (hclean : ∀ i ∈ l, ∀ r ∈ s,
      ¬(r.driver_id = driver ∧ r.date = ⟨year, month, i + 1⟩ ∧ r.is_day_off = true)) :
    (l.foldl (expandStep driver month year dow) s).countP (isDayOffRow driver year month)
      = s.countP (isDayOffRow driver year month)
        + (l.filter (fun i => decide (dayOfWeek ⟨year, month, i + 1⟩ = dow))).length := by
  induction l generalizing s with
  | nil => simp
  | cons i t ih =>
    rw [List.foldl_cons]
    have hmem : inMonthRange year month ⟨year, month, i + 1⟩ = true :=
      (inMonthRange_iff year month _).mpr
        ⟨rfl, rfl, Nat.le_add_left 1 i, hdays i (List.mem_cons_self i t)⟩
    have hdate_ne : ∀ j ∈ t, (⟨year, month, j + 1⟩ : Date) ≠ ⟨year, month, i + 1⟩ := by
      intro j hj h
      have : j = i := by
        have := congrArg Date.day h
        simpa using this
      exact (List.nodup_cons.mp hnodup).1 (this ▸ hj)
    by_cases hw : dayOfWeek ⟨year, month, i + 1⟩ = dow
    · have hstep : expandStep driver month year dow s i
          = upsertDayOff driver ⟨year, month, i + 1⟩ s := by
        unfold expandStep
        rw [if_pos hw]
      rw [hstep]
      have hcount : (upsertDayOff driver ⟨year, month, i + 1⟩ s).countP
          (isDayOffRow driver year month) = s.countP (isDayOffRow driver year month) + 1 := by
        refine countP_upsertDayOff huniq ?_ ?_
        · simp [isDayOffRow, hmem]
        · intro r hr h1 h2
          constructor
          · simp [isDayOffRow, h1, h2, hmem]
          · simp only [isDayOffRow, decide_eq_false_iff_not]
            intro ⟨c1, c2, c3⟩
            exact hclean i (List.mem_cons_self i t) r hr ⟨h1, h2, c3⟩
      have hclean' : ∀ j ∈ t, ∀ r ∈ upsertDayOff driver ⟨year, month, i + 1⟩ s,
          ¬(r.driver_id = driver ∧ r.date = ⟨year, month, j + 1⟩ ∧ r.is_day_off = true) := by
        intro j hj r hr hcon
        rcases mem_upsertDayOff_cases hr with hin | ⟨_, hd, _⟩
        · exact hclean j (List.mem_cons_of_mem i hj) r hin hcon
        · rw [hcon.2.1] at hd
          exact hdate_ne j hj hd
      rw [ih _ (upsertDayOff_unique huniq) (List.nodup_cons.mp hnodup).2
        (fun j hj => hdays j (List.mem_cons_of_mem i hj)) hclean', hcount]
      simp [List.filter_cons, hw]
      omega
    · have hstep : expandStep driver month year dow s i = s := by
        unfold expandStep
        rw [if_neg hw]
      rw [hstep, ih _ huniq (List.nodup_cons.mp hnodup).2
        (fun j hj => hdays j (List.mem_cons_of_mem i hj))
        (fun j hj => hclean j (List.mem_cons_of_mem i hj))]
      simp [List.filter_cons, hw]

theorem foldl_expand_exists_mono (driver month year dow : Nat) (l : List Nat)
    (s : List ScheduleRow) (dr : Nat) (dd : Date)
    (h : ∃ r ∈ s, r.driver_id = dr ∧ r.date = dd ∧ r.is_day_off = true) :
    ∃ r ∈ l.foldl (expandStep driver month year dow) s,
      r.driver_id = dr ∧ r.date = dd ∧ r.is_day_off = true := by
  induction l generalizing s with
  | nil => exact h
  | cons i t ih =>
    rw [List.foldl_cons]
    refine ih _ ?_
    unfold expandStep
    split
    · exact exists_dayoff_mono _ _ _ _ _ h
    · exact h

theorem foldl_expand_exists (driver month year dow : Nat) (l : List Nat)
    (s : List ScheduleRow) (i : Nat) (hi : i ∈ l)
    (hw : dayOfWeek ⟨year, month, i + 1⟩ = dow) :
    ∃ r ∈ l.foldl (expandStep driver month year dow) s,
      r.driver_id = driver ∧ r.date = ⟨year, month, i + 1⟩ ∧ r.is_day_off = true := by
  induction l generalizing s with
  | nil => cases hi
  | cons j t ih =>
    rw [List.foldl_cons]
    rcases List.mem_cons.mp hi with hij | hit
    · subst hij
      refine foldl_expand_exists_mono driver month year dow t _ driver _ ?_
      unfold expandStep
      rw [if_pos hw]
      exact exists_dayoff_upsertDayOff driver _ s
    · exact ih _ hit

theorem foldl_expand_monthcount (driver month year dow : Nat) (l : List Nat)
    (s : List ScheduleRow) (huniq : uniqueSchedKeys s) (hnodup : l.Nodup)
    (hdays : ∀ i ∈ l, i + 1 ≤ daysInMonth year month)
    (hnokey : ∀ i ∈ l, dayOfWeek ⟨year, month, i + 1⟩ = dow →
      hasKey driver ⟨year, month, i + 1⟩ s = false) :
    (l.foldl (expandStep driver month year dow) s).countP (isMonthRow driver year month)
      = s.countP (isMonthRow driver year month)
        + (l.filter (fun i => decide (dayOfWeek ⟨year, month, i + 1⟩ = dow))).length := by
  induction l generalizing s with
  | nil => simp
  | cons i t ih =>
    rw [List.foldl_cons]
    have hmem : inMonthRange year month ⟨year, month, i + 1⟩ = true :=
      (inMonthRange_iff year month _).mpr
        ⟨rfl, rfl, Nat.le_add_left 1 i, hdays i (List.mem_cons_self i t)⟩
    by_cases hw : dayOfWeek ⟨year, month, i + 1⟩ = dow
    · have hk := hnokey i (List.mem_cons_self i t) hw
      have hstep : expandStep driver month year dow s i
          = s ++ [⟨driver, ⟨year, month, i + 1⟩, true, false⟩] := by
        unfold expandStep upsertDayOff
        rw [if_pos hw, if_neg (by simp [hk])]
      rw [hstep]
      have hnokey' : ∀ j ∈ t, dayOfWeek ⟨year, month, j + 1⟩ = dow →
          hasKey driver ⟨year, month, j + 1⟩
            (s ++ [⟨driver, ⟨year, month, i + 1⟩, true, false⟩]) = false := by
        intro j hj hwj
        rw [Bool.eq_false_iff]
        intro hc
        have hc' := (hasKey_iff _ _ _).mp hc
        rw [List.map_append] at hc'
        rcases List.mem_append.mp hc' with hm | hm
        · exact absurd ((hasKey_iff _ _ _).mpr hm)
            (by simp [hnokey j (List.mem_cons_of_mem i hj) hwj])
        · simp only [List.map_cons, List.map_nil, List.mem_singleton, schedKey,
            Prod.mk.injEq] at hm
          have : j = i := by
            have := congrArg Date.day hm.2
            simpa using this
          exact (List.nodup_cons.mp hnodup).1 (this ▸ hj)
      have huniq' : uniqueSchedKeys (s ++ [⟨driver, ⟨year, month, i + 1⟩, true, false⟩]) := by
        unfold uniqueSchedKeys
        rw [List.map_append, List.nodup_append]
        refine ⟨huniq, List.nodup_singleton _, ?_⟩
        intro x hx hx'
        simp only [List.map_cons, List.map_nil, List.mem_singleton] at hx'
        subst hx'
        exact absurd ((hasKey_iff _ _ _).mpr hx) (by simp [hk])
      rw [ih _ huniq' (List.nodup_cons.mp hnodup).2
        (fun j hj => hdays j (List.mem_cons_of_mem i hj)) hnokey']
      rw [List.countP_append]
      simp [List.filter_cons, hw, isMonthRow, hmem]
      omega
    · have hstep : expandStep driver month year dow s i = s := by
        unfold expandStep
        rw [if_neg hw]
      rw [hstep, ih _ huniq (List.nodup_cons.mp hnodup).2
        (fun j hj => hdays j (List.mem_cons_of_mem i hj))
        (fun j hj => hnokey j (List.mem_cons_of_mem i hj))]
      simp [List.filter_cons, hw]

/-- After the trigger runs, the day-off rows of the driver inside the
month number exactly the dates of the month whose weekday matches the
pattern: spec §8 property 1. -/
theorem create_dayoff_count (driver month year dow : Nat) (s : List ScheduleRow)
    (huniq : uniqueSchedKeys s) :
    (create_monthly_dayoff_schedules driver month year dow s).countP
        (isDayOffRow driver year month)
      = ((List.range (daysInMonth year month)).filter
          (fun i => decide (dayOfWeek ⟨year, month, i + 1⟩ = dow))).length := by
  unfold create_monthly_dayoff_schedules
  have hsub : (s.filter (fun r =>
      !decide (r.driver_id = driver ∧ inMonthRange year month r.date = true ∧
        r.is_day_off = true))).Sublist s := List.filter_sublist s
  have huniq0 : uniqueSchedKeys (s.filter (fun r =>
      !decide (r.driver_id = driver ∧ inMonthRange year month r.date = true ∧
        r.is_day_off = true))) := List.Nodup.sublist (hsub.map schedKey) huniq
  have hclean : ∀ i ∈ List.range (daysInMonth year month),
      ∀ r ∈ s.filter (fun r =>
        !decide (r.driver_id = driver ∧ inMonthRange year month r.date = true ∧
          r.is_day_off = true)),
      ¬(r.driver_id = driver ∧ r.date = ⟨year, month, i + 1⟩ ∧ r.is_day_off = true) := by
    intro i hi r hr hcon
    have hp := List.of_mem_filter hr
    simp only [Bool.not_eq_true', decide_eq_false_iff_not] at hp
    refine hp ⟨hcon.1, ?_, hcon.2.2⟩
    rw [hcon.2.1]
    exact (inMonthRange_iff year month _).mpr
      ⟨rfl, rfl, Nat.le_add_left 1 i, List.mem_range.mp hi⟩
  have h0 : (s.filter (fun r =>
      !decide (r.driver_id = driver ∧ inMonthRange year month r.date = true ∧
        r.is_day_off = true))).countP (isDayOffRow driver year month) = 0 := by
    refine List.countP_eq_zero.mpr (fun r hr => ?_)
    have hp := List.of_mem_filter hr
    simp only [Bool.not_eq_true', decide_eq_false_iff_not] at hp
    simp only [isDayOffRow, decide_eq_true_eq]
    exact hp
  rw [foldl_expand_countP driver month year dow _ _ huniq0 (List.nodup_range _)
    (fun i hi => List.mem_range.mp hi) hclean, h0, Nat.zero_add]

theorem create_unique (driver month year dow : Nat) (s : List ScheduleRow)
    (huniq : uniqueSchedKeys s) :
    uniqueSchedKeys (create_monthly_dayoff_schedules driver month year dow s) := by
  unfold create_monthly_dayoff_schedules
  exact foldl_expand_unique driver month year dow _ _
    (List.Nodup.sublist ((List.filter_sublist s).map schedKey) huniq)

theorem create_exists_dayoff (driver month year dow : Nat) (s : List ScheduleRow)
    (i : Nat) (hi : i < daysInMonth year month)
    (hw : dayOfWeek ⟨year, month, i + 1⟩ = dow) :
    ∃ r ∈ create_monthly_dayoff_schedules driver month year dow s,
      r.driver_id = driver ∧ r.date = ⟨year, month, i + 1⟩ ∧ r.is_day_off = true := by
  unfold create_monthly_dayoff_schedules
  exact foldl_expand_exists driver month year dow _ _ i (List.mem_range.mpr hi) hw

/-- Running the trigger on a table that already carries a day-off row at
every matching date keeps the driver's total row count for the month:
the delete removes only day-off rows, which sit exactly at the matching
dates, and the loop re-inserts one row per matching date. -/
theorem create_monthcount_stable (driver month year dow : Nat) (s : List ScheduleRow)
    (huniq : uniqueSchedKeys s)
    (hoff : (s.countP (isDayOffRow driver year month))
      = ((List.range (daysInMonth year month)).filter
          (fun i => decide (dayOfWeek ⟨year, month, i + 1⟩ = dow))).length)
    (hfull : ∀ i, i < daysInMonth year month → dayOfWeek ⟨year, month, i + 1⟩ = dow →
      ∃ r ∈ s, r.driver_id = driver ∧ r.date = ⟨year, month, i + 1⟩ ∧ r.is_day_off = true) :
    (create_monthly_dayoff_schedules driver month year dow s).countP
        (isMonthRow driver year month)
      = s.countP (isMonthRow driver year month) := by
  unfold create_monthly_dayoff_schedules
  set del := fun r : ScheduleRow =>
    !decide (r.driver_id = driver ∧ inMonthRange year month r.date = true ∧
      r.is_day_off = true) with hdel
  have huniq0 : uniqueSchedKeys (s.filter del) :=
    List.Nodup.sublist ((List.filter_sublist s).map schedKey) huniq
  have himp : ∀ r ∈ s, isDayOffRow driver year month r = true →
      isMonthRow driver year month r = true := by
    intro r _ hr
    simp only [isDayOffRow, decide_eq_true_eq] at hr
    simp only [isMonthRow, decide_eq_true_eq]
    exact ⟨hr.1, hr.2.1⟩
  have hsplit := countP_sub_of_imp (isMonthRow driver year month)
    (isDayOffRow driver year month) s himp
  have hcnt0 : (s.filter del).countP (isMonthRow driver year month)
      = s.countP (isMonthRow driver year month)
        - s.countP (isDayOffRow driver year month) := by
    rw [List.countP_filter]
    rw [← hsplit.2]
    refine List.countP_congr (fun r hr => ?_)
    simp only [hdel, isDayOffRow, isMonthRow, decide_eq_true_eq, Bool.and_eq_true,
      Bool.not_eq_true', decide_eq_false_iff_not]
  have hnokey : ∀ i ∈ List.range (daysInMonth year month),
      dayOfWeek ⟨year, month, i + 1⟩ = dow →
      hasKey driver ⟨year, month, i + 1⟩ (s.filter del) = false := by
    intro i hi hw
    rw [Bool.eq_false_iff]
    intro hc
    obtain ⟨r, hr, hpr⟩ := List.any_eq_true.mp hc
    simp only [decide_eq_true_eq] at hpr
    have hrs := List.mem_of_mem_filter hr
    have hrdel := List.of_mem_filter hr
    simp only [hdel, Bool.not_eq_true', decide_eq_false_iff_not] at hrdel
    have hroff : r.is_day_off = false := by
      rcases Bool.eq_false_or_eq_true r.is_day_off with h | h
      · exact absurd ⟨hpr.1, by
          rw [hpr.2]
          exact (inMonthRange_iff year month _).mpr
            ⟨rfl, rfl, Nat.le_add_left 1 i, List.mem_range.mp hi⟩, h⟩ hrdel
      · exact h
    obtain ⟨r0, hr0, h01, h02, h03⟩ := hfull i (List.mem_range.mp hi) hw
    have : r = r0 := by
      refine List.inj_on_of_nodup_map huniq hrs hr0 ?_
      simp only [schedKey, hpr.1, hpr.2, h01, h02]
    rw [this, h03] at hroff
    cases hroff
  rw [foldl_expand_monthcount driver month year dow _ _ huniq0 (List.nodup_range _)
    (fun i hi => List.mem_range.mp hi) hnokey, hcnt0, hoff]
  have hle : s.countP (isDayOffRow driver year month)
      ≤ s.countP (isMonthRow driver year month) := hsplit.1
  omega

/-- One row of `driver_monthly_dayoff`, unique on `(driver_id, month, year)`. -/
structure PatternRow where
  id : Nat
  driver_id : Nat
  month : Nat
  year : Nat
  day_of_week : Nat
deriving DecidableEq, Repr

/-- The `(driver_id, month, year)` key of a pattern row. -/
def patternKey (p : PatternRow) : Nat × Nat × Nat := (p.driver_id, p.month, p.year)

/-- The `driver_monthly_dayoff(driver_id, month, year)` unique constraint. -/
def uniquePatternKeys (ps : List PatternRow) : Prop := (ps.map patternKey).Nodup

instance : DecidablePred uniquePatternKeys := fun ps =>
  inferInstanceAs (Decidable ((ps.map patternKey).Nodup))

/-- The pattern-form `handleSubmit` write path: look up an existing
pattern for `(driver_id, month, year)` (`maybeSingle`); if present,
update its `day_of_week`, otherwise insert a new row (id supplied by the
caller in place of `gen_random_uuid`). -/
def upsertPattern (newId driver month year dow : Nat) (ps : List PatternRow) :
    List PatternRow :=
  if ps.any (fun p => decide (p.driver_id = driver ∧ p.month = month ∧ p.year = year))
  then
    ps.map (fun p =>
      if p.driver_id = driver ∧ p.month = month ∧ p.year = year then
        { p with day_of_week := dow }
      else p)
  else ps ++ [⟨newId, driver, month, year, dow⟩]

/-- One row of the `replacements` table. -/
structure RepRow where
  id : Nat
  schedule_id : Nat
  replacement_driver_id : Nat
  shift_id : Nat
deriving DecidableEq, Repr

/-- One row of `overtime_records`: `hours DECIMAL(5,2)` and
`ot_rate DECIMAL(3,2)` are rationals, `ot_type` is one of
`replacement`, `extension`, `special`. -/
structure OvertimeRecord where
  id : Nat
  driver_id : Nat
  date : Date
  hours : ℚ
  ot_type : String
  ot_rate : ℚ
deriving DecidableEq, Repr

/-- The relational store as far as the two rule engines touch it. -/
structure DB where
  schedules : List ScheduleRow
  patterns : List PatternRow
  replacements : List RepRow
  overtime_records : List OvertimeRecord
deriving DecidableEq, Repr

/-- The full Set Pattern operation: `handleSubmit` upserts the pattern
row, and the `AFTER INSERT OR UPDATE` trigger
`create_monthly_dayoff_schedules_trigger` fires on that row, expanding
it into day-off schedule rows.  The trigger fires on update even when
`day_of_week` is unchanged. -/
def setPattern (newId driver month year dow : Nat) (db : DB) : DB :=
  { db with
    patterns := upsertPattern newId driver month year dow db.patterns,
    schedules := create_monthly_dayoff_schedules driver month year dow db.schedules }

/-- The day-off list `handleDelete`: fetch the pattern by id (`single`;
on failure nothing is deleted), delete every day-off schedule row of
that driver between the month's first and last day
(`new Date(year, month - 1, 1)` .. `new Date(year, month, 0)`), then
delete the pattern row itself. -/
def handleDelete (patternId : Nat) (db : DB) : DB :=
  match db.patterns.find? (fun p => decide (p.id = patternId)) with
  | none => db
  | some pat =>
    { db with
      schedules := db.schedules.filter (fun r =>
        !decide (r.driver_id = pat.driver_id ∧ r.is_day_off = true ∧
          inMonthRange pat.year pat.month r.date = true)),
      patterns := db.patterns.filter (fun p => !decide (p.id = patternId)) }

/-- The two leave kinds the day-schedule dialog can set. -/
inductive LeaveType where
  | day_off
  | annual_leave
deriving DecidableEq, Repr

/-- The dialog's `handleScheduleUpdate`: look up the driver's schedule
row for the date (`maybeSingle`: a single row is returned, otherwise
`data` is null).  If found, toggle the requested flag and force the
other flag to `false`; if not found, insert a fresh row with exactly the
requested flag set. -/
def handleScheduleUpdate (driverId : Nat) (d : Date) (t : LeaveType)
    (s : List ScheduleRow) : List ScheduleRow :=
  match s.filter (fun r => decide (r.driver_id = driverId ∧ r.date = d)) with
  | [r0] =>
    s.map (fun r =>
      if r.driver_id = driverId ∧ r.date = d then
        { r with
          is_day_off := match t with
            | .day_off => !r0.is_day_off
            | .annual_leave => false,
          is_annual_leave := match t with
            | .day_off => false
            | .annual_leave => !r0.is_annual_leave }
      else r)
  | _ =>
    s ++ [⟨driverId, d, decide (t = .day_off), decide (t = .annual_leave)⟩]

/-- The overtime lookup filter used by the dialog handlers:
`.eq("driver_id", ...)` and `.eq("date", ...)` — no `ot_type` filter. -/
def otKey (driverId : Nat) (d : Date) (o : OvertimeRecord) : Bool :=
  decide (o.driver_id = driverId ∧ o.date = d)

/-- The overtime accrual step shared by `handleAssignReplacement` and
`handleUpdateReplacement`: query `overtime_records` for the replacement
driver's record on the date — keyed on `driver_id` and `date` only
(`maybeSingle`, whose `data` is null unless exactly one row matches)
— then either add 8 hours to that record (update by its id) or insert a
new record with `hours = 8`, `ot_type = "replacement"`,
`ot_rate = 1.5`. -/
def accrueOvertime (newOtId driverId : Nat) (d : Date)
    (ots : List OvertimeRecord) : List OvertimeRecord :=
  match ots.filter (otKey driverId d) with
  | [o0] =>
    ots.map (fun o => if o.id = o0.id then { o with hours := o.hours + 8 } else o)
  | _ => ots ++ [⟨newOtId, driverId, d, 8, "replacement", 3 / 2⟩]

/-- The dialog's `handleAssignReplacement`: insert a replacement row for
the shift, then accrue 8 hours of replacement overtime.  The insert's
error is never inspected, so the accrual runs whether or not the insert
succeeded; `insertOk` carries the storage outcome of that unchecked
insert (fresh row ids stand in for `gen_random_uuid`). -/
def handleAssignReplacement (insertOk : Bool) (newRepId newOtId : Nat)
    (scheduleId replacementDriverId shiftId : Nat) (d : Date)
    (reps : List RepRow) (ots : List OvertimeRecord) :
    List RepRow × List OvertimeRecord :=
  (if insertOk then reps ++ [⟨newRepId, scheduleId, replacementDriverId, shiftId⟩]
   else reps,
   accrueOvertime newOtId replacementDriverId d ots)

/-- The dialog's `handleUpdateReplacement`: fetch the replacement row by
id (`single`; on failure the handler throws and nothing changes), point
it at the new driver, delete the old driver's overtime records for the
date with `ot_type = "replacement"` wholesale, then accrue 8 hours for
the new driver on the already-reduced table. -/
def handleUpdateReplacement (replacementId newDriverId : Nat) (d : Date)
    (newOtId : Nat) (reps : List RepRow) (ots : List OvertimeRecord) :
    List RepRow × List OvertimeRecord :=
  match reps.find? (fun r => decide (r.id = replacementId)) with
  | none => (reps, ots)
  | some oldReplacement =>
    (reps.map (fun r =>
        if r.id = replacementId then { r with replacement_driver_id := newDriverId }
        else r),
     accrueOvertime newOtId newDriverId d
       (ots.filter (fun o =>
         !decide (o.driver_id = oldReplacement.replacement_driver_id ∧ o.date = d ∧
           o.ot_type = "replacement"))))

/-- The pattern form's weekday options as `(value, label)` pairs, exactly
as listed in the `DriverMonthlyDayoff` component. -/
def DAYS_OF_WEEK : List (String × String) :=
  [("6", "Sunday"), ("0", "Monday"), ("1", "Tuesday"), ("2", "Wednesday"),
   ("3", "Thursday"), ("4", "Friday"), ("5", "Saturday")]

/-- `parseInt` on the form's decimal option values, modelled as a digit
fold over the characters. -/
def parseIntValue (s : String) : Nat :=
  s.toList.foldl (fun acc c => acc * 10 + (c.toNat - Char.toNat '0')) 0

/-- `handleSubmit`'s conversion of the selected option value to the
stored integer: `selectedDayOfWeek === "7" ? 0 : parseInt(selectedDayOfWeek)`. -/
def submittedDayOfWeek (selected : String) : Nat :=
  if selected = "7" then 0 else parseIntValue selected

/-- The `day_of_week` integer `handleSubmit` stores when the user picks
the weekday option labelled `label`. -/
def storedDayOfWeekFor (label : String) : Option Nat :=
  (DAYS_OF_WEEK.find? (fun p => decide (p.2 = label))).map
    (fun p => submittedDayOfWeek p.1)

/-- One user-level write operation against the store: marking a day off
or annual leave, submitting a day-off pattern (with its expansion
trigger), deleting a pattern, assigning a replacement, or moving a
replacement to another driver. -/
inductive Step : DB → DB → Prop where
  | mark (driverId : Nat) (d : Date) (t : LeaveType) (db : DB) :
      Step db { db with schedules := handleScheduleUpdate driverId d t db.schedules }
  | set_pattern (newId driver month year dow : Nat) (db : DB) :
      Step db (setPattern newId driver month year dow db)
  | delete_pattern (patternId : Nat) (db : DB) :
      Step db (handleDelete patternId db)
  | assign (insertOk : Bool) (newRepId newOtId scheduleId replacementDriverId
        shiftId : Nat) (d : Date) (db : DB) :
      Step db { db with
        replacements := (handleAssignReplacement insertOk newRepId newOtId
          scheduleId replacementDriverId shiftId d db.replacements
          db.overtime_records).1,
        overtime_records := (handleAssignReplacement insertOk newRepId newOtId
          scheduleId replacementDriverId shiftId d db.replacements
          db.overtime_records).2 }
  | update_replacement (replacementId newDriverId : Nat) (d : Date)
        (newOtId : Nat) (db : DB) :
      Step db { db with
        replacements := (handleUpdateReplacement replacementId newDriverId d
          newOtId db.replacements db.overtime_records).1,
        overtime_records := (handleUpdateReplacement replacementId newDriverId d
          newOtId db.replacements db.overtime_records).2 }

/-- States reachable from the empty store through the system's
operations. -/
inductive Reachable : DB → Prop where
  | init : Reachable ⟨[], [], [], []⟩
  | step {db db' : DB} : Reachable db → Step db db' → Reachable db'

/-- Schedule states reachable from an empty table through the
day-schedule dialog's marking operation alone. -/
inductive ReachableDialog : List ScheduleRow → Prop where
  | init : ReachableDialog []
  | mark (driverId : Nat) (d : Date) (t : LeaveType) {s : List ScheduleRow} :
      ReachableDialog s → ReachableDialog (handleScheduleUpdate driverId d t s)

/-- The dialog's marking operation keeps `(driver_id, date)` keys unique. -/
theorem handleScheduleUpdate_unique (driverId : Nat) (d : Date) (t : LeaveType)
    (s : List ScheduleRow) (h : uniqueSchedKeys s) :
    uniqueSchedKeys (handleScheduleUpdate driverId d t s) := by
  rcases hfil : s.filter (fun r => decide (r.driver_id = driverId ∧ r.date = d)) with
    _ | ⟨r0, _ | ⟨r1, tl⟩⟩
  · unfold handleScheduleUpdate
    rw [hfil]
    unfold uniqueSchedKeys
    rw [List.map_append, List.nodup_append]
    refine ⟨h, List.nodup_singleton _, ?_⟩
    intro x hx hx'
    simp only [List.map_cons, List.map_nil, List.mem_singleton] at hx'
    subst hx'
    obtain ⟨r, hr, hrr⟩ := List.mem_map.mp hx
    have : r ∈ s.filter (fun r => decide (r.driver_id = driverId ∧ r.date = d)) := by
      rw [List.mem_filter]
      refine ⟨hr, ?_⟩
      simp only [schedKey, Prod.mk.injEq] at hrr
      simp [hrr.1, hrr.2]
    rw [hfil] at this
    cases this
  · unfold handleScheduleUpdate
    rw [hfil]
    unfold uniqueSchedKeys
    have : (s.map (fun r =>
        if r.driver_id = driverId ∧ r.date = d then
          { r with
            is_day_off := match t with
              | .day_off => !r0.is_day_off
              | .annual_leave => false,
            is_annual_leave := match t with
              | .day_off => false
              | .annual_leave => !r0.is_annual_leave }
        else r)).map schedKey = s.map schedKey := by
      rw [List.map_map]
      refine List.map_congr_left (fun r _ => ?_)
      by_cases hx : r.driver_id = driverId ∧ r.date = d
      · simp [hx, schedKey]
      · simp [hx]
    rw [this]
    exact h
  · exfalso
    have h0 : r0 ∈ s ∧ r0.driver_id = driverId ∧ r0.date = d := by
      have : r0 ∈ s.filter (fun r => decide (r.driver_id = driverId ∧ r.date = d)) := by
        rw [hfil]
        exact List.mem_cons_self _ _
      have hm := List.mem_filter.mp this
      exact ⟨hm.1, by simpa using hm.2⟩
    have h1 : r1 ∈ s ∧ r1.driver_id = driverId ∧ r1.date = d := by
      have : r1 ∈ s.filter (fun r => decide (r.driver_id = driverId ∧ r.date = d)) := by
        rw [hfil]
        exact List.mem_cons_of_mem _ (List.mem_cons_self _ _)
      have hm := List.mem_filter.mp this
      exact ⟨hm.1, by simpa using hm.2⟩
    have hne : r0 ≠ r1 := by
      intro he
      have hnd : (s.filter (fun r => decide (r.driver_id = driverId ∧ r.date = d))).Nodup :=
        List.Nodup.filter _ (List.Nodup.of_map schedKey h)
      rw [hfil, List.nodup_cons] at hnd
      exact hnd.1 (he ▸ List.mem_cons_self r1 tl)
    refine hne (List.inj_on_of_nodup_map h h0.1 h1.1 ?_)
    simp only [schedKey, h0.2.1, h0.2.2, h1.2.1, h1.2.2]

/-- The dialog's marking operation never sets both leave flags on a row. -/
theorem handleScheduleUpdate_mutex (driverId : Nat) (d : Date) (t : LeaveType)
    (s : List ScheduleRow)
    (h : ∀ r ∈ s, ¬(r.is_day_off = true ∧ r.is_annual_leave = true)) :
    ∀ r ∈ handleScheduleUpdate driverId d t s,
      ¬(r.is_day_off = true ∧ r.is_annual_leave = true) := by
  intro r hr
  rcases hfil : s.filter (fun x => decide (x.driver_id = driverId ∧ x.date = d)) with
    _ | ⟨r0, _ | ⟨r1, tl⟩⟩ <;>
    unfold handleScheduleUpdate at hr <;> rw [hfil] at hr
  · rcases List.mem_append.mp hr with hm | hm
    · exact h r hm
    · simp only [List.mem_singleton] at hm
      subst hm
      cases t <;> simp
  · obtain ⟨q, hq, hqq⟩ := List.mem_map.mp hr
    by_cases hx : q.driver_id = driverId ∧ q.date = d
    · rw [if_pos hx] at hqq
      subst hqq
      cases t <;> simp
    · rw [if_neg hx] at hqq
      exact h r (hqq ▸ hq)
  · rcases List.mem_append.mp hr with hm | hm
    · exact h r hm
    · simp only [List.mem_singleton] at hm
      subst hm
      cases t <;> simp

/-- Every pattern row matching the key after an upsert carries the
submitted `day_of_week`. -/
theorem upsertPattern_key_dow (newId driver month year dow : Nat)
    (ps : List PatternRow) (p : PatternRow)
    (hp : p ∈ upsertPattern newId driver month year dow ps)
    (hkey : p.driver_id = driver ∧ p.month = month ∧ p.year = year) :
    p.day_of_week = dow := by
  unfold upsertPattern at hp
  split at hp
  · obtain ⟨q, hq, hqq⟩ := List.mem_map.mp hp
    by_cases hx : q.driver_id = driver ∧ q.month = month ∧ q.year = year
    · rw [if_pos hx] at hqq
      rw [← hqq]
    · rw [if_neg hx] at hqq
      exact absurd (hqq ▸ hkey) hx
  · next h =>
    rcases List.mem_append.mp hp with hm | hm
    · exfalso
      refine h (List.any_eq_true.mpr ⟨p, hm, ?_⟩)
      simpa using hkey
    · simp only [List.mem_singleton] at hm
      rw [hm]

/-- After an upsert some row matches the key. -/
theorem upsertPattern_key_mem (newId driver month year dow : Nat)
    (ps : List PatternRow) :
    ∃ p ∈ upsertPattern newId driver month year dow ps,
      p.driver_id = driver ∧ p.month = month ∧ p.year = year := by
  unfold upsertPattern
  split
  · next h =>
    obtain ⟨q, hq, hpq⟩ := List.any_eq_true.mp h
    simp only [decide_eq_true_eq] at hpq
    refine ⟨if q.driver_id = driver ∧ q.month = month ∧ q.year = year then
        { q with day_of_week := dow } else q, List.mem_map.mpr ⟨q, hq, rfl⟩, ?_⟩
    rw [if_pos hpq]
    exact ⟨hpq.1, hpq.2.1, hpq.2.2⟩
  · exact ⟨⟨newId, driver, month, year, dow⟩,
      List.mem_append_right _ (List.mem_singleton.mpr rfl), rfl, rfl, rfl⟩

/-- Re-submitting the same pattern leaves `driver_monthly_dayoff`
untouched: the second submit finds the row and updates `day_of_week` to
the value it already has. -/
theorem upsertPattern_twice (id1 id2 driver month year dow : Nat)
    (ps : List PatternRow) :
    upsertPattern id2 driver month year dow (upsertPattern id1 driver month year dow ps)
      = upsertPattern id1 driver month year dow ps := by
  have hany : (upsertPattern id1 driver month year dow ps).any
      (fun p => decide (p.driver_id = driver ∧ p.month = month ∧ p.year = year))
        = true := by
    obtain ⟨p, hp, hkey⟩ := upsertPattern_key_mem id1 driver month year dow ps
    exact List.any_eq_true.mpr ⟨p, hp, by simpa using hkey⟩
  have main : ∀ qs : List PatternRow,
      qs.any (fun p => decide (p.driver_id = driver ∧ p.month = month ∧ p.year = year))
        = true →
      (∀ p ∈ qs, p.driver_id = driver ∧ p.month = month ∧ p.year = year →
        p.day_of_week = dow) →
      upsertPattern id2 driver month year dow qs = qs := by
    intro qs hq hdow
    unfold upsertPattern
    rw [if_pos hq]
    rw [show qs = qs.map id by rw [List.map_id]]
    rw [List.map_map]
    refine List.map_congr_left (fun p hp => ?_)
    simp only [List.map_id, Function.comp_apply, id_eq]
    by_cases hx : p.driver_id = driver ∧ p.month = month ∧ p.year = year
    · rw [if_pos hx]
      have := hdow p (by simpa using hp) hx
      cases p
      simp_all
    · rw [if_neg hx]
  exact main _ hany (fun p hp hx => upsertPattern_key_dow id1 driver month year dow ps p hp hx)

/-- C1: for every driver, month, year and day_of_week, Set Pattern
leaves exactly N day-off schedule rows for that driver in that month,
where N is the number of dates of the month whose weekday equals
day_of_week — assuming the `(driver_id, date)` uniqueness the upsert's
`ON CONFLICT` clause relies on. -/
theorem C1_set_pattern_dayoff_count (newId driver month year dow : Nat) (db : DB)
    (huniq : uniqueSchedKeys db.schedules) :
    ((setPattern newId driver month year dow db).schedules).countP
        (isDayOffRow driver year month)
      = ((List.range (daysInMonth year month)).filter
          (fun i => decide (dayOfWeek ⟨year, month, i + 1⟩ = dow))).length :=
  create_dayoff_count driver month year dow db.schedules huniq

/-- C1 witness: February 2024 with weekday 4 (Thursday) yields exactly
5 day-off rows (Feb 1, 8, 15, 22, 29). -/
theorem C1_set_pattern_dayoff_count_witness :
    uniqueSchedKeys ([] : List ScheduleRow) ∧
    ((setPattern 0 1 2 2024 4 ⟨[], [], [], []⟩).schedules).countP
        (isDayOffRow 1 2024 2) = 5 := by
  refine ⟨by decide, ?_⟩
  rw [C1_set_pattern_dayoff_count 0 1 2 2024 4 ⟨[], [], [], []⟩ (by decide)]
  decide

/-- C7: re-invoking Set Pattern with identical arguments changes neither
the driver's schedule row count for the month nor the pattern table. -/
theorem C7_set_pattern_idempotent (id1 id2 driver month year dow : Nat) (db : DB)
    (huniq : uniqueSchedKeys db.schedules) :
    ((setPattern id2 driver month year dow
          (setPattern id1 driver month year dow db)).schedules).countP
        (isMonthRow driver year month)
      = ((setPattern id1 driver month year dow db).schedules).countP
          (isMonthRow driver year month)
    ∧ (setPattern id2 driver month year dow
          (setPattern id1 driver month year dow db)).patterns
      = (setPattern id1 driver month year dow db).patterns := by
  constructor
  · simp only [setPattern]
    exact create_monthcount_stable driver month year dow _
      (create_unique driver month year dow db.schedules huniq)
      (create_dayoff_count driver month year dow db.schedules huniq)
      (fun i hi hw => create_exists_dayoff driver month year dow db.schedules i hi hw)
  · simp only [setPattern]
    exact upsertPattern_twice id1 id2 driver month year dow db.patterns

/-- C7 witness: submitting the February 2024 Thursday pattern twice from
the empty store keeps the schedule row count and the pattern table. -/
theorem C7_set_pattern_idempotent_witness :
    uniqueSchedKeys ([] : List ScheduleRow) ∧
    ((setPattern 1 3 2 2024 4 (setPattern 0 3 2 2024 4 ⟨[], [], [], []⟩)).schedules).countP
        (isMonthRow 3 2024 2)
      = ((setPattern 0 3 2 2024 4 ⟨[], [], [], []⟩).schedules).countP (isMonthRow 3 2024 2) :=
  ⟨by decide, (C7_set_pattern_idempotent 0 1 3 2 2024 4 ⟨[], [], [], []⟩ (by decide)).1⟩

/-- C6: deleting an existing pattern removes every day-off schedule row
of that driver inside the month and the pattern row itself, leaving zero
of each for that driver/month/year key. -/
theorem C6_delete_pattern (patternId : Nat) (db : DB) (pat : PatternRow)
    (hfind : db.patterns.find? (fun p => decide (p.id = patternId)) = some pat)
    (hup : uniquePatternKeys db.patterns) :
    ((handleDelete patternId db).schedules).countP
        (isDayOffRow pat.driver_id pat.year pat.month) = 0
    ∧ ((handleDelete patternId db).patterns).countP
        (fun p => decide (p.driver_id = pat.driver_id ∧ p.month = pat.month ∧
          p.year = pat.year)) = 0 := by
  unfold handleDelete
  rw [hfind]
  constructor
  · rw [List.countP_eq_zero]
    intro r hr hc
    have hsurv := List.of_mem_filter hr
    simp only [Bool.not_eq_true', decide_eq_false_iff_not] at hsurv
    simp only [isDayOffRow, decide_eq_true_eq] at hc
    exact hsurv ⟨hc.1, hc.2.2, hc.2.1⟩
  · rw [List.countP_eq_zero]
    intro p hp hc
    simp only [decide_eq_true_eq] at hc
    have hmem := List.mem_of_mem_filter hp
    have hid := List.of_mem_filter hp
    simp only [Bool.not_eq_true', decide_eq_false_iff_not] at hid
    have hpat := List.mem_of_find?_eq_some hfind
    have hkey : patternKey p = patternKey pat := by
      simp only [patternKey, hc.1, hc.2.1, hc.2.2]
    have hep : p = pat := List.inj_on_of_nodup_map hup hmem hpat hkey
    have hpid := List.find?_some hfind
    simp only [decide_eq_true_eq] at hpid
    exact hid (hep ▸ hpid)

/-- C6 witness: deleting the single February 2024 pattern of driver 7
clears its day-off row and the pattern row. -/
theorem C6_delete_pattern_witness :
    ((handleDelete 5 ⟨[⟨7, ⟨2024, 2, 8⟩, true, false⟩], [⟨5, 7, 2, 2024, 4⟩], [], []⟩).schedules).countP
        (isDayOffRow 7 2024 2) = 0
    ∧ ((handleDelete 5 ⟨[⟨7, ⟨2024, 2, 8⟩, true, false⟩], [⟨5, 7, 2, 2024, 4⟩], [], []⟩).patterns).countP
        (fun p => decide (p.driver_id = 7 ∧ p.month = 2 ∧ p.year = 2024)) = 0 :=
  C6_delete_pattern 5 ⟨[⟨7, ⟨2024, 2, 8⟩, true, false⟩], [⟨5, 7, 2, 2024, 4⟩], [], []⟩
    ⟨5, 7, 2, 2024, 4⟩ (by decide) (by decide)

/-- Updating a record's hours does not move it in or out of a
driver/date key class, so filtering by key commutes with the hours
update map. -/
theorem filter_otKey_map_hours (driverId : Nat) (d : Date) (oid : Nat)
    (ots : List OvertimeRecord) :
    (ots.map (fun o => if o.id = oid then { o with hours := o.hours + 8 } else o)).filter
        (otKey driverId d)
      = (ots.filter (otKey driverId d)).map
          (fun o => if o.id = oid then { o with hours := o.hours + 8 } else o) := by
  rw [List.filter_map]
  refine congrArg _ (List.filter_congr (fun o _ => ?_))
  by_cases hx : o.id = oid
  · simp [hx, otKey, Function.comp]
  · simp [hx, Function.comp]

/-- C2: assigning the same replacement driver to two different shifts of
an absent driver's date, starting with no overtime record for that
driver and date, leaves exactly one overtime record for the pair and its
hours equal 16. -/
theorem C2_double_assign_merges_to_16 (schedId shiftA shiftB replDriver : Nat)
    (rid1 rid2 oid1 oid2 : Nat) (d : Date) (reps : List RepRow)
    (ots : List OvertimeRecord)
    (hshift : shiftA ≠ shiftB)
    (hno : ots.countP (otKey replDriver d) = 0) :
    ((handleAssignReplacement true rid2 oid2 schedId replDriver shiftB d
        (handleAssignReplacement true rid1 oid1 schedId replDriver shiftA d reps ots).1
        (handleAssignReplacement true rid1 oid1 schedId replDriver shiftA d reps ots).2).2).filter
        (otKey replDriver d)
      = [⟨oid1, replDriver, d, 16, "replacement", 3 / 2⟩] := by
  have hfil0 : ots.filter (otKey replDriver d) = [] := by
    rw [List.filter_eq_nil_iff]
    intro o ho
    exact (List.countP_eq_zero.mp hno) o ho
  have hstep1 : (handleAssignReplacement true rid1 oid1 schedId replDriver shiftA d
      reps ots).2 = ots ++ [⟨oid1, replDriver, d, 8, "replacement", 3 / 2⟩] := by
    show accrueOvertime oid1 replDriver d ots = _
    unfold accrueOvertime
    rw [hfil0]
  have hfil1 : List.filter (otKey replDriver d)
      (ots ++ [(⟨oid1, replDriver, d, 8, "replacement", 3 / 2⟩ : OvertimeRecord)])
      = [⟨oid1, replDriver, d, 8, "replacement", 3 / 2⟩] := by
    rw [List.filter_append, hfil0]
    simp [otKey]
  have hstep2 : (handleAssignReplacement true rid2 oid2 schedId replDriver shiftB d
      (handleAssignReplacement true rid1 oid1 schedId replDriver shiftA d reps ots).1
      (handleAssignReplacement true rid1 oid1 schedId replDriver shiftA d reps ots).2).2
      = List.map (fun o : OvertimeRecord =>
            if o.id = oid1 then { o with hours := o.hours + 8 } else o)
          (ots ++ [(⟨oid1, replDriver, d, 8, "replacement", 3 / 2⟩ : OvertimeRecord)]) := by
    show accrueOvertime oid2 replDriver d
      (handleAssignReplacement true rid1 oid1 schedId replDriver shiftA d reps ots).2 = _
    rw [hstep1]
    unfold accrueOvertime
    rw [hfil1]
  rw [hstep2, filter_otKey_map_hours, hfil1]
  simp only [List.map_cons, List.map_nil, if_pos rfl]
  norm_num

/-- C2 witness: two assignments for shifts 2 and 3 from an empty ledger
leave the single record with 16 hours. -/
theorem C2_double_assign_merges_to_16_witness :
    2 ≠ 3 ∧
    ((handleAssignReplacement true 11 21 1 4 3 ⟨2024, 3, 6⟩
        (handleAssignReplacement true 10 20 1 4 2 ⟨2024, 3, 6⟩ [] []).1
        (handleAssignReplacement true 10 20 1 4 2 ⟨2024, 3, 6⟩ [] []).2).2).filter
        (otKey 4 ⟨2024, 3, 6⟩)
      = [⟨20, 4, ⟨2024, 3, 6⟩, 16, "replacement", 3 / 2⟩] :=
  ⟨by decide, C2_double_assign_merges_to_16 1 2 3 4 10 11 20 21 ⟨2024, 3, 6⟩ [] []
    (by decide) (by decide)⟩

/-- C3: the code deletes the old replacement driver's entire overtime
record for the date instead of subtracting the 8-hour contribution.
Driver 7 covered two shifts (16 merged hours); moving the first
assignment to driver 8 leaves driver 7 with no record at all — the claim
expects 8 hours to remain — while driver 8 receives a fresh 8-hour
record. -/
theorem C3_update_replacement_over_deletes :
    (handleUpdateReplacement 1 8 ⟨2024, 3, 5⟩ 60
        [⟨1, 10, 7, 100⟩, ⟨2, 11, 7, 101⟩]
        [⟨50, 7, ⟨2024, 3, 5⟩, 16, "replacement", 3 / 2⟩]).2
      = [⟨60, 8, ⟨2024, 3, 5⟩, 8, "replacement", 3 / 2⟩] := by
  norm_num [handleUpdateReplacement, accrueOvertime, otKey, List.filter, List.find?]

/-- C4 counterexample: when the replacement driver's only overtime
record for the date has `ot_type = "extension"`, the code increments
that record's hours by 8 and inserts nothing, because the lookup is
keyed on driver and date only; the claim requires the extension record
to stay untouched and a fresh replacement-type record to appear. -/
theorem C4_counterexample_extension_record_incremented :
    (handleAssignReplacement true 1 9 3 7 4 ⟨2024, 3, 5⟩ []
        [⟨5, 7, ⟨2024, 3, 5⟩, 2, "extension", 2⟩]).2
      = [⟨5, 7, ⟨2024, 3, 5⟩, 10, "extension", 2⟩] := by
  norm_num [handleAssignReplacement, accrueOvertime, otKey, List.filter]

/-- C4 amended: Assign Replacement selects the record to merge into by
`(replacement_driver_id, date)` alone.  If exactly one overtime record
exists for that pair, its hours grow by 8 whatever its `ot_type`, and no
record is added; if none exists, a record with hours 8,
ot_type "replacement" and ot_rate 1.5 is inserted. -/
theorem C4_amended_merge_keyed_on_driver_date (rid oid schedId replDriver shiftId : Nat)
    (d : Date) (reps : List RepRow) (ots : List OvertimeRecord) :
    (∀ o0 : OvertimeRecord, ots.filter (otKey replDriver d) = [o0] →
      ((handleAssignReplacement true rid oid schedId replDriver shiftId d reps
          ots).2).filter (otKey replDriver d)
        = [{ o0 with hours := o0.hours + 8 }]
      ∧ ((handleAssignReplacement true rid oid schedId replDriver shiftId d reps
          ots).2).length = ots.length)
    ∧ (ots.filter (otKey replDriver d) = [] →
      (handleAssignReplacement true rid oid schedId replDriver shiftId d reps ots).2
        = ots ++ [⟨oid, replDriver, d, 8, "replacement", 3 / 2⟩]) := by
  constructor
  · intro o0 h1
    have hacc : (handleAssignReplacement true rid oid schedId replDriver shiftId d
        reps ots).2 = ots.map
          (fun o => if o.id = o0.id then { o with hours := o.hours + 8 } else o) := by
      show accrueOvertime oid replDriver d ots = _
      unfold accrueOvertime
      rw [h1]
    constructor
    · rw [hacc, filter_otKey_map_hours, h1]
      simp
    · rw [hacc, List.length_map]
  · intro h0
    show accrueOvertime oid replDriver d ots = _
    unfold accrueOvertime
    rw [h0]

/-- C4 amended witness: merging into a lone extension record and
inserting when the ledger is empty. -/
theorem C4_amended_merge_keyed_on_driver_date_witness :
    ((handleAssignReplacement true 1 9 3 7 4 ⟨2024, 3, 5⟩ []
        [⟨5, 7, ⟨2024, 3, 5⟩, 2, "extension", 2⟩]).2).filter (otKey 7 ⟨2024, 3, 5⟩)
      = [⟨5, 7, ⟨2024, 3, 5⟩, 2 + 8, "extension", 2⟩]
    ∧ (handleAssignReplacement true 1 9 3 7 4 ⟨2024, 3, 5⟩ [] []).2
      = [⟨9, 7, ⟨2024, 3, 5⟩, 8, "replacement", 3 / 2⟩] :=
  ⟨((C4_amended_merge_keyed_on_driver_date 1 9 3 7 4 ⟨2024, 3, 5⟩ []
      [⟨5, 7, ⟨2024, 3, 5⟩, 2, "extension", 2⟩]).1
      ⟨5, 7, ⟨2024, 3, 5⟩, 2, "extension", 2⟩ (by simp [otKey, List.filter])).1,
   (C4_amended_merge_keyed_on_driver_date 1 9 3 7 4 ⟨2024, 3, 5⟩ [] []).2 rfl⟩

/-- C10: the replacement-row insert's error is never checked, so when
the storage rejects the insert the overtime accrual still runs: here no
replacement row appears, yet the replacement driver's existing 8-hour
record grows to 16. -/
theorem C10_accrual_runs_despite_failed_insert :
    (handleAssignReplacement false 1 2 3 4 5 ⟨2024, 3, 6⟩ []
        [⟨9, 4, ⟨2024, 3, 6⟩, 8, "replacement", 3 / 2⟩]).1 = []
    ∧ (handleAssignReplacement false 1 2 3 4 5 ⟨2024, 3, 6⟩ []
        [⟨9, 4, ⟨2024, 3, 6⟩, 8, "replacement", 3 / 2⟩]).2
      = [⟨9, 4, ⟨2024, 3, 6⟩, 16, "replacement", 3 / 2⟩] := by
  constructor
  · rfl
  · norm_num [handleAssignReplacement, accrueOvertime, otKey, List.filter]

/-- C5: the pattern form stores Sunday as 6 and Monday as 0, not the
0=Sunday..6=Saturday convention the expansion trigger uses — despite the
form's own comment converting "Sunday from 7 to 0" and the migration's
column comment.  February 4 2024 is a Sunday (weekday 0 for the
trigger); February 3 2024 is a Saturday (weekday 6), so selecting
Sunday makes the trigger mark Saturdays. -/
theorem C5_form_weekday_encoding_shifted :
    storedDayOfWeekFor "Sunday" = some 6
    ∧ storedDayOfWeekFor "Monday" = some 0
    ∧ storedDayOfWeekFor "Saturday" = some 5
    ∧ dayOfWeek ⟨2024, 2, 4⟩ = 0 ∧ dayOfWeek ⟨2024, 2, 3⟩ = 6 := by decide

/-- C8: every state reachable through the system's operations keeps at
most one schedule row per `(driver_id, date)`. -/
theorem C8_schedule_keys_unique (db : DB) (h : Reachable db) :
    uniqueSchedKeys db.schedules := by
  induction h with
  | init => simp [uniqueSchedKeys]
  | step hr hs ih =>
    cases hs with
    | mark driverId d t db => exact handleScheduleUpdate_unique driverId d t _ ih
    | set_pattern newId driver month year dow db =>
      exact create_unique driver month year dow _ ih
    | delete_pattern patternId db =>
      unfold handleDelete
      split
      · exact ih
      · exact List.Nodup.sublist (List.Sublist.map schedKey (List.filter_sublist _)) ih
    | assign insertOk newRepId newOtId scheduleId replacementDriverId shiftId d db =>
      exact ih
    | update_replacement replacementId newDriverId d newOtId db => exact ih

/-- C8 witness: the state after one marking step from the empty store
has unique schedule keys. -/
theorem C8_schedule_keys_unique_witness :
    uniqueSchedKeys
      ({ schedules := handleScheduleUpdate 1 ⟨2024, 2, 1⟩ LeaveType.day_off [],
         patterns := [], replacements := [], overtime_records := [] } : DB).schedules :=
  C8_schedule_keys_unique _
    (Reachable.step Reachable.init
      (Step.mark 1 ⟨2024, 2, 1⟩ LeaveType.day_off ⟨[], [], [], []⟩))

/-- C9 counterexample: mark driver 1 on annual leave for February 1 2024
through the dialog, then set the February 2024 Thursday pattern; the
trigger's `ON CONFLICT` update sets `is_day_off` while preserving
`is_annual_leave`, so a row carries both flags. -/
theorem C9_counterexample_both_flags :
    ((setPattern 0 1 2 2024 4
        { schedules := handleScheduleUpdate 1 ⟨2024, 2, 1⟩ .annual_leave [],
          patterns := [], replacements := [], overtime_records := [] }).schedules).any
      (fun r => r.is_day_off && r.is_annual_leave) = true := by decide

/-- C9 amended: restricted to the day-schedule dialog's marking
operations alone, no schedule row ever carries both `is_day_off` and
`is_annual_leave`; the pattern expansion breaks this by overwriting
`is_day_off = true` on an annual-leave row while preserving the other
flag. -/
theorem C9_amended_dialog_mutual_exclusion (s : List ScheduleRow)
    (h : ReachableDialog s) :
    ∀ r ∈ s, ¬(r.is_day_off = true ∧ r.is_annual_leave = true) := by
  induction h with
  | init => intro r hr; cases hr
  | mark driverId d t hs ih => exact handleScheduleUpdate_mutex driverId d t _ ih

/-- C9 amended witness: the state after one annual-leave marking has no
row with both flags. -/
theorem C9_amended_dialog_mutual_exclusion_witness :
    (handleScheduleUpdate 1 ⟨2024, 2, 1⟩ .annual_leave []).all
      (fun r => !(r.is_day_off && r.is_annual_leave)) = true := by
  rw [List.all_eq_true]
  intro r hr
  have h := C9_amended_dialog_mutual_exclusion _
    (ReachableDialog.mark 1 ⟨2024, 2, 1⟩ .annual_leave ReachableDialog.init) r hr
  simp only [Bool.not_eq_true', Bool.and_eq_false_iff]
  rcases Bool.eq_false_or_eq_true r.is_day_off with hb | hb
  · rcases Bool.eq_false_or_eq_true r.is_annual_leave with hc | hc
    · exact absurd ⟨hb, hc⟩ h
    · exact Or.inr hc
  · exact Or.inl hb

end DriverMgmt
